import Mathlib

/-!
Shallow embedding of the `dsp_project` repository's microphone-array module
(`src/mic_array.py`) and audio display utility (`src/util.py`).

Python objects are modelled as Lean structures.  Mutable aliasing between
`MicArray.mics` and the `name_to_mic` dictionary (whose values are the very
`Mic` objects held in `mics`) is modelled by storing, in `name_to_mic`, the
index of the referenced mic within the `mics` list: mutating the mic reached
through the dictionary is mutating the list entry at that index, exactly as
in Python.  Python dictionaries are modelled as association lists with
insert-or-overwrite semantics.  Exceptions are modelled with `Except` or an
explicit error component; a raised exception carries the partially mutated
state, matching Python's in-place mutation.
-/

/-- A Python mic name: the code allows strings or integers
(`Union[int, str]`). -/
inductive MicName where
  | str : String → MicName
  | int : Int → MicName
deriving DecidableEq, Repr

/-- A `Mic` object (`mic_array.py`, class `Mic`): `name` may be `None`
(modelled `Option`), `fS` the sample rate, `pos` the position array. -/
structure Mic where
  name : Option MicName
  fS : Int
  pos : List Int
deriving DecidableEq, Repr

/-- A JSON-parsed mic object (the `json_mic_obj` dict): each field is
`none` when the corresponding key is absent from the JSON object. -/
structure JsonMicObj where
  name : Option (Option MicName)
  fS : Option Int
  pos : Option (List Int)
deriving DecidableEq, Repr

/-- Python's `param in json_mic_obj` key-membership test, for the keys the
code queries. -/
def JsonMicObj.hasKey (o : JsonMicObj) : String → Bool
  | "name" => o.name.isSome
  | "fS" => o.fS.isSome
  | "pos" => o.pos.isSome
  | _ => false

/-- `Mic.required_params = ["fS", "pos"]`. -/
def Mic.required_params : List String := ["fS", "pos"]

/-- The `ConfigError` raised by `Mic.__init__`: its message names the
missing parameter and dumps the offending JSON object, so the model keeps
both. -/
structure ConfigError where
  param : String
  obj : JsonMicObj
deriving DecidableEq, Repr

/-- The loop `for param in Mic.required_params: if param not in json_mic_obj`,
returning the first missing required parameter. -/
def findMissingParam (o : JsonMicObj) : List String → Option String
  | [] => none
  | p :: ps => if o.hasKey p then findMissingParam o ps else some p

/-- `Mic.__init__(json_mic_obj, default_name)`: raises `ConfigError` on a
missing required parameter, otherwise builds the `Mic` with
`name = json_mic_obj["name"] if "name" in json_mic_obj else default_name`. -/
def Mic.init (o : JsonMicObj) (default_name : Option MicName) :
    Except ConfigError Mic :=
  match findMissingParam o Mic.required_params with
  | some p => .error ⟨p, o⟩
  | none =>
      .ok { name := o.name.getD default_name
            fS := o.fS.getD 0
            pos := o.pos.getD [] }

/-- Python dict assignment `d[k] = v`: overwrite in place if the key is
present, else append at the end. -/
def dictInsert (d : List (Option MicName × Nat)) (k : Option MicName)
    (v : Nat) : List (Option MicName × Nat) :=
  match d with
  | [] => [(k, v)]
  | (k', v') :: rest =>
      if k' = k then (k, v) :: rest else (k', v') :: dictInsert rest k v

/-- Python dict lookup `d[k]` (as an `Option`). -/
def dictLookup (d : List (Option MicName × Nat)) (k : Option MicName) :
    Option Nat :=
  match d with
  | [] => none
  | (k', v) :: rest => if k' = k then some v else dictLookup rest k

/-- Python `k in d` for a dict. -/
def dictMem (d : List (Option MicName × Nat)) (k : Option MicName) : Bool :=
  (dictLookup d k).isSome

/-- The dict comprehension `{mic.name: mic for mic in self.mics}`, inserting
`(mic.name, index-of-mic)` in list order starting at index `i`. -/
def buildNameToMicAux (d : List (Option MicName × Nat)) (i : Nat) :
    List Mic → List (Option MicName × Nat)
  | [] => d
  | m :: rest => buildNameToMicAux (dictInsert d m.name i) (i + 1) rest

/-- `MicArray.name_to_mic` as built at construction. -/
def buildNameToMic (mics : List Mic) : List (Option MicName × Nat) :=
  buildNameToMicAux [] 0 mics

/-- A `MicArray` object's state (`mic_array.py`, class `MicArray`). -/
structure MicArray where
  nChannels : Nat
  mics : List Mic
  valid_names : Option Bool
  name_to_mic : List (Option MicName × Nat)
deriving DecidableEq, Repr

/-- The loop of `MicArray._load_cfg`: builds each `Mic(json_mic_obj)` in
order, the first `ConfigError` escaping. -/
def micsFromData : List JsonMicObj → Except ConfigError (List Mic)
  | [] => .ok []
  | o :: rest =>
      match Mic.init o none with
      | .error e => .error e
      | .ok m =>
          match micsFromData rest with
          | .error e => .error e
          | .ok ms => .ok (m :: ms)

/-- `MicArray.__init__` applied to the parsed JSON array `data`:
`_load_cfg` sets `nChannels = len(data)` and builds `mics`; then
`valid_names = None` and `name_to_mic = {mic.name: mic for mic in mics}`. -/
def MicArray.init (data : List JsonMicObj) : Except ConfigError MicArray :=
  match micsFromData data with
  | .error e => .error e
  | .ok ms =>
      .ok { nChannels := data.length
            mics := ms
            valid_names := none
            name_to_mic := buildNameToMic ms }

/-- The loop of `MicArray.validate_names`: `names` is the set of names seen
so far; a `None` name or a repeat returns false, otherwise the name is
added and the scan continues. -/
def validateNamesLoop : List Mic → List MicName → Bool
  | [], _ => true
  | m :: rest, names =>
      match m.name with
      | none => false
      | some n => if n ∈ names then false else validateNamesLoop rest (n :: names)

/-- `MicArray.validate_names()`: returns the boolean and the updated object
(the result is also stored in `valid_names`). -/
def MicArray.validate_names (a : MicArray) : Bool × MicArray :=
  let b := validateNamesLoop a.mics []
  (b, { a with valid_names := some b })

/-- `MicArray.gen_names()`: `for idx, mic in enumerate(self.mics):
mic.name = idx` (in-place rename; no other field touched). -/
def MicArray.gen_names (a : MicArray) : MicArray :=
  { a with
    mics := a.mics.enum.map (fun im => { im.2 with name := some (MicName.int im.1) }) }

/-- The loop of `MicArray.get_sample_freq` with accumulator `rval`. -/
def getSampleFreqLoop : Option Int → List Mic → Option Int
  | rval, [] => rval
  | rval, m :: rest =>
      match rval with
      | some r => if r ≠ m.fS then none else getSampleFreqLoop (some m.fS) rest
      | none => getSampleFreqLoop (some m.fS) rest

/-- `MicArray.get_sample_freq()`. -/
def MicArray.get_sample_freq (a : MicArray) : Option Int :=
  getSampleFreqLoop none a.mics

/-- `MicArray.__contains__(name)`: `name in self.name_to_mic`. -/
def MicArray.contains (a : MicArray) (name : Option MicName) : Bool :=
  dictMem a.name_to_mic name

/-- In-place update `self.name_to_mic[mic_name].pos = np.array(pos)`: the
dictionary value is a reference to the mic at index `i` of `mics`, so the
list entry at `i` is mutated. -/
def setPosAt : List Mic → Nat → List Int → List Mic
  | [], _, _ => []
  | m :: rest, 0, p => { m with pos := p } :: rest
  | m :: rest, i + 1, p => m :: setPosAt rest i p

/-- `MicArray.set_mic_locs(locs)` over the input mapping's iteration order:
returns the state after the call together with `some badName` when the loop
raised `InvalidInput` at `badName` (the mutations already applied are kept in
the returned state), or `none` when the whole mapping was applied. -/
def MicArray.set_mic_locs (a : MicArray) :
    List (Option MicName × List Int) → MicArray × Option (Option MicName)
  | [] => (a, none)
  | (nm, p) :: rest =>
      match dictLookup a.name_to_mic nm with
      | some i =>
          MicArray.set_mic_locs { a with mics := setPosAt a.mics i p } rest
      | none => (a, some nm)

/-- The entries of `locs` that `set_mic_locs` processes before returning or
raising: the longest prefix whose names are all keys of the dictionary
`d` (the array's `name_to_mic`). -/
def processedLocs (d : List (Option MicName × Nat))
    (locs : List (Option MicName × List Int)) :
    List (Option MicName × List Int) :=
  locs.takeWhile (fun x => dictMem d x.1)

/-- The last position written to the mic at index `i` by the entries of
`locs`, resolving names through the dictionary `d` (the array's
`name_to_mic`, as `set_mic_locs` does). -/
def lastWrite (d : List (Option MicName × Nat))
    (locs : List (Option MicName × List Int)) (i : Nat) :
    Option (List Int) :=
  match locs with
  | [] => none
  | (nm, p) :: rest =>
      match lastWrite d rest i with
      | some q => some q
      | none => if dictLookup d nm = some i then some p else none

/-- The last index of a mic named `k` in the list, if any (0-based). -/
def lastIdxOf (k : Option MicName) : List Mic → Option Nat
  | [] => none
  | m :: rest =>
      match lastIdxOf k rest with
      | some j => some (j + 1)
      | none => if m.name = k then some 0 else none

/-- `max([len(signal) for signal in audio_dat.values()])` (over a non-empty
mapping; Python's `max` raises on an empty one). -/
def maxLenOf (audio_dat : List (MicName × List ℚ)) : Nat :=
  (audio_dat.map (fun nv => nv.2.length)).foldr max 0

/-- The data `plot_audio_dat(audio_dat, fS)` (`util.py`) draws: one subplot
per entry, plotting the points `zip(t, padded signal)` where
`t = range(max_len) / fS` and each signal is right-padded with zeros to the
longest signal's length.  `none` models the function raising before any
plotting: on an empty mapping `max([])` raises `ValueError`, and on a
single-entry mapping `plt.subplots(1)` (with matplotlib's default
`squeeze=True`) returns a scalar `Axes`, so `zip(axs, audio_dat.items())`
raises `TypeError` — only mappings of two or more entries are drawn. -/
def plot_audio_dat (audio_dat : List (MicName × List ℚ)) (fS : ℚ) :
    Option (List (MicName × List (ℚ × ℚ))) :=
  match audio_dat with
  | [] => none
  | [_] => none
  | _ =>
      let maxLen := maxLenOf audio_dat
      let t := (List.range maxLen).map (fun i : Nat => (i : ℚ) / fS)
      some (audio_dat.map (fun nv =>
        (nv.1, t.zip (nv.2 ++ List.replicate (maxLen - nv.2.length) 0))))

/-! ### Concrete configuration objects (used by witnesses) -/

/-- `{"name": "A", "fS": 16000, "pos": [0,0,0]}`. -/
def objA : JsonMicObj :=
  { name := some (some (.str "A")), fS := some 16000, pos := some [0, 0, 0] }

/-- `{"name": "B", "fS": 16000, "pos": [1,0,0]}`. -/
def objB : JsonMicObj :=
  { name := some (some (.str "B")), fS := some 16000, pos := some [1, 0, 0] }

/-- `{"name": "X", "pos": [0,0,0]}` (no `fS`). -/
def objNoFS : JsonMicObj :=
  { name := some (some (.str "X")), fS := none, pos := some [0, 0, 0] }

/-- The array built from `[objA, objB]`. -/
def micArrayAB : MicArray :=
  { nChannels := 2
    mics := [{ name := some (.str "A"), fS := 16000, pos := [0, 0, 0] },
             { name := some (.str "B"), fS := 16000, pos := [1, 0, 0] }]
    valid_names := none
    name_to_mic := [(some (.str "A"), 0), (some (.str "B"), 1)] }

/-! ### `validate_names` -/

theorem validateNamesLoop_eq_true_iff (mics : List Mic) :
    ∀ seen : List MicName,
      validateNamesLoop mics seen = true ↔
        ((∀ m ∈ mics, ∃ n, m.name = some n ∧ n ∉ seen) ∧
          (mics.map Mic.name).Nodup) := by
  induction mics with
  | nil => intro seen; simp [validateNamesLoop]
  | cons m rest ih =>
    intro seen
    cases hm : m.name with
    | none =>
      simp only [validateNamesLoop, hm]
      constructor
      · intro h; cases h
      · rintro ⟨h, -⟩
        rcases h m (List.mem_cons_self m rest) with ⟨n, hn, -⟩
        simp [hm] at hn
    | some n =>
      by_cases hn : n ∈ seen
      · simp only [validateNamesLoop, hm, if_pos hn]
        constructor
        · intro h; cases h
        · rintro ⟨h, -⟩
          rcases h m (List.mem_cons_self m rest) with ⟨n', hn', hmem⟩
          rw [hm] at hn'
          cases hn'
          exact absurd hn hmem
      · simp only [validateNamesLoop, hm, if_neg hn]
        rw [ih (n :: seen)]
        simp only [List.map_cons, List.nodup_cons, List.mem_cons,
          forall_eq_or_imp, hm, List.mem_map]
        constructor
        · rintro ⟨hall, hnd⟩
          refine ⟨⟨⟨n, rfl, hn⟩, ?_⟩, ⟨?_, hnd⟩⟩
          · intro m' hm'
            rcases hall m' hm' with ⟨n', hn', hmem⟩
            exact ⟨n', hn', fun hs => hmem (Or.inr hs)⟩
          · rintro ⟨m', hm', hname⟩
            rcases hall m' hm' with ⟨n', hn', hmem⟩
            rw [hn'] at hname
            cases hname
            exact hmem (Or.inl rfl)
        · rintro ⟨⟨-, hall⟩, hnotin, hnd⟩
          refine ⟨?_, hnd⟩
          intro m' hm'
          rcases hall m' hm' with ⟨n', hn', hmem⟩
          refine ⟨n', hn', ?_⟩
          intro hs
          rcases hs with h1 | h1
          · subst h1; exact hnotin ⟨m', hm', hn'⟩
          · exact hmem h1

/-- **C1.** `validate_names()` returns true iff every mic has a distinct,
non-`None` name (false whenever some name is `None` or repeated); the
returned boolean is stored in `valid_names`, which construction initialises
to `None`. -/
theorem claim_C1 (a a₀ : MicArray) (data : List JsonMicObj)
    (h : MicArray.init data = .ok a₀) :
    a₀.valid_names = none ∧
      ((a.validate_names).1 = true ↔
        ((∀ m ∈ a.mics, m.name ≠ none) ∧ (a.mics.map Mic.name).Nodup)) ∧
      (a.validate_names).2.valid_names = some (a.validate_names).1 := by
  refine ⟨?_, ?_, rfl⟩
  · unfold MicArray.init at h
    cases hd : micsFromData data with
    | error e => rw [hd] at h; cases h
    | ok ms => rw [hd] at h; cases h; rfl
  · show validateNamesLoop a.mics [] = true ↔ _
    rw [validateNamesLoop_eq_true_iff a.mics []]
    constructor
    · rintro ⟨hall, hnd⟩
      refine ⟨?_, hnd⟩
      intro m hm
      rcases hall m hm with ⟨n, hn, -⟩
      rw [hn]; exact Option.some_ne_none n
    · rintro ⟨hall, hnd⟩
      refine ⟨?_, hnd⟩
      intro m hm
      cases hname : m.name with
      | none => exact absurd hname (hall m hm)
      | some n => exact ⟨n, rfl, List.not_mem_nil n⟩

/-- Witness for C1 at the concrete two-mic array. -/
theorem claim_C1_witness : micArrayAB.valid_names = none :=
  (claim_C1 micArrayAB micArrayAB [objA, objB] rfl).1

/-! ### `get_sample_freq` -/

theorem getSampleFreqLoop_some (mics : List Mic) :
    ∀ r f : Int,
      getSampleFreqLoop (some r) mics = some f ↔
        (f = r ∧ ∀ m ∈ mics, m.fS = r) := by
  induction mics with
  | nil =>
    intro r f
    simp [getSampleFreqLoop, eq_comm]
  | cons m rest ih =>
    intro r f
    by_cases hr : r = m.fS
    · subst hr
      show (if m.fS ≠ m.fS then none else getSampleFreqLoop (some m.fS) rest)
          = some f ↔ _
      rw [if_neg (by simp)]
      rw [ih m.fS f]
      simp only [List.mem_cons, forall_eq_or_imp, true_and]
    · show (if r ≠ m.fS then none else getSampleFreqLoop (some m.fS) rest)
          = some f ↔ _
      rw [if_pos hr]
      constructor
      · intro h; cases h
      · rintro ⟨-, hall⟩
        exact absurd (hall m (List.mem_cons_self m rest)) (Ne.symm hr)

/-- **C2.** `get_sample_freq()` returns `some f` exactly when the mic list
is non-empty and every mic samples at `f`; it returns the sentinel `none`
on an empty list and whenever two mics' rates differ. -/
theorem claim_C2 (a : MicArray) :
    (∀ f : Int, a.get_sample_freq = some f ↔
        (a.mics ≠ [] ∧ ∀ m ∈ a.mics, m.fS = f)) ∧
      (a.mics = [] → a.get_sample_freq = none) ∧
      (∀ m₁ m₂, m₁ ∈ a.mics → m₂ ∈ a.mics → m₁.fS ≠ m₂.fS →
        a.get_sample_freq = none) := by
  have hmain : ∀ f : Int, a.get_sample_freq = some f ↔
      (a.mics ≠ [] ∧ ∀ m ∈ a.mics, m.fS = f) := by
    intro f
    unfold MicArray.get_sample_freq
    cases hm : a.mics with
    | nil => simp [getSampleFreqLoop]
    | cons m rest =>
      show getSampleFreqLoop (some m.fS) rest = some f ↔ _
      rw [getSampleFreqLoop_some rest m.fS f]
      simp only [ne_eq, List.cons_ne_nil, not_false_eq_true, true_and,
        List.mem_cons, forall_eq_or_imp]
      constructor
      · rintro ⟨rfl, hall⟩; exact ⟨rfl, hall⟩
      · rintro ⟨h1, hall⟩
        subst h1
        exact ⟨rfl, hall⟩
  refine ⟨hmain, ?_, ?_⟩
  · intro hnil
    cases hfreq : a.get_sample_freq with
    | none => rfl
    | some f =>
      rcases (hmain f).mp hfreq with ⟨hne, -⟩
      exact absurd hnil hne
  · intro m₁ m₂ h₁ h₂ hne
    cases hfreq : a.get_sample_freq with
    | none => rfl
    | some f =>
      rcases (hmain f).mp hfreq with ⟨-, hall⟩
      exact absurd ((hall m₁ h₁).trans (hall m₂ h₂).symm) hne

/-! ### `gen_names` -/

/-- **C4.** After `gen_names()` the mic list keeps its length and
`mics[i].name == i` (as a Python int) for every index, whatever the names
were before. -/
theorem claim_C4 (a : MicArray) :
    (a.gen_names).mics.length = a.mics.length ∧
      ∀ i (hi : i < (a.gen_names).mics.length),
        ((a.gen_names).mics.get ⟨i, hi⟩).name = some (MicName.int i) := by
  constructor
  · simp [MicArray.gen_names]
  · intro i hi
    have hi' : i < a.mics.enum.length := by
      simpa [MicArray.gen_names] using hi
    have hie : i < a.mics.length := by simpa using hi'
    simp only [MicArray.gen_names, List.get_eq_getElem, List.getElem_map,
      List.getElem_enum]

/-- **C5.** `gen_names()` leaves the `name_to_mic` dictionary untouched
(same key-to-reference entries), so membership keeps resolving against the
stale pre-rename names. -/
theorem claim_C5 (a : MicArray) :
    (a.gen_names).name_to_mic = a.name_to_mic ∧
      (∀ nm, (a.gen_names).contains nm = a.contains nm) ∧
      (∀ nm, dictLookup (a.gen_names).name_to_mic nm =
        dictLookup a.name_to_mic nm) :=
  ⟨rfl, fun _ => rfl, fun _ => rfl⟩

/-! ### `Mic` construction errors -/

/-- **C6.** Constructing a `Mic` from an object missing `fS` or missing
`pos` raises the configuration error, which carries the offending object;
no `Mic` value is produced. -/
theorem claim_C6 (o : JsonMicObj) (d : Option MicName)
    (h : o.fS = none ∨ o.pos = none) :
    ∃ p, Mic.init o d = .error ⟨p, o⟩ ∧ (p = "fS" ∨ p = "pos") := by
  rcases h with h | h
  · refine ⟨"fS", ?_, Or.inl rfl⟩
    simp [Mic.init, findMissingParam, Mic.required_params, JsonMicObj.hasKey, h]
  · cases hfS : o.fS with
    | none =>
      refine ⟨"fS", ?_, Or.inl rfl⟩
      simp [Mic.init, findMissingParam, Mic.required_params,
        JsonMicObj.hasKey, hfS]
    | some v =>
      refine ⟨"pos", ?_, Or.inr rfl⟩
      simp [Mic.init, findMissingParam, Mic.required_params,
        JsonMicObj.hasKey, hfS, h]

/-- Witness for C6 at the concrete `fS`-less object. -/
theorem claim_C6_witness :
    ∃ p, Mic.init objNoFS none = .error ⟨p, objNoFS⟩ ∧
      (p = "fS" ∨ p = "pos") :=
  claim_C6 objNoFS none (Or.inl rfl)

/-! ### Construction -/

/-- The `Mic` that `Mic.init` builds from an object containing both
required parameters, with no default name supplied. -/
def micOfValid (o : JsonMicObj) : Mic :=
  { name := o.name.getD none, fS := o.fS.getD 0, pos := o.pos.getD [] }

theorem micsFromData_of_valid (data : List JsonMicObj)
    (h : ∀ o ∈ data, o.fS.isSome ∧ o.pos.isSome) :
    micsFromData data = .ok (data.map micOfValid) := by
  induction data with
  | nil => rfl
  | cons o rest ih =>
    rcases h o (List.mem_cons_self o rest) with ⟨hfS, hpos⟩
    have hinit : Mic.init o none = .ok (micOfValid o) := by
      unfold Mic.init findMissingParam Mic.required_params
      simp [JsonMicObj.hasKey, hfS, hpos, findMissingParam, micOfValid]
    have hrest : micsFromData rest = .ok (rest.map micOfValid) :=
      ih (fun o' ho' => h o' (List.mem_cons_of_mem o ho'))
    unfold micsFromData
    rw [hinit, hrest]
    rfl

theorem micsFromData_length (data : List JsonMicObj) :
    ∀ ms, micsFromData data = .ok ms → ms.length = data.length := by
  induction data with
  | nil =>
    intro ms hms
    cases hms
    rfl
  | cons o rest ih =>
    intro ms hms
    unfold micsFromData at hms
    cases hinit : Mic.init o none with
    | error e => rw [hinit] at hms; cases hms
    | ok m =>
      rw [hinit] at hms
      cases hrest : micsFromData rest with
      | error e => rw [hrest] at hms; cases hms
      | ok ms' =>
        rw [hrest] at hms
        cases hms
        simp [ih ms' hrest]

/-- Inversion of `MicArray.init`: a successful construction is the record
built from a successful `micsFromData`. -/
theorem MicArray.init_ok (data : List JsonMicObj) (a : MicArray)
    (h : MicArray.init data = .ok a) :
    micsFromData data = .ok a.mics ∧
      a.nChannels = data.length ∧
      a.valid_names = none ∧
      a.name_to_mic = buildNameToMic a.mics := by
  unfold MicArray.init at h
  cases hd : micsFromData data with
  | error e => rw [hd] at h; cases h
  | ok ms =>
    rw [hd] at h
    cases h
    exact ⟨rfl, rfl, rfl, rfl⟩

/-- **C7.** Constructing a `MicArray` from a JSON array of `N` objects each
containing `fS` and `pos` succeeds with `nChannels == N` and
`len(mics) == N`, the mics in array order; no default name is supplied, so
a mic whose object lacks a `name` key gets name `None`. -/
theorem claim_C7 (data : List JsonMicObj)
    (h : ∀ o ∈ data, o.fS.isSome ∧ o.pos.isSome) :
    ∃ a, MicArray.init data = .ok a ∧
      a.nChannels = data.length ∧
      a.mics.length = data.length ∧
      ∀ i (hi : i < data.length) (hm : i < a.mics.length),
        (a.mics.get ⟨i, hm⟩).name = (data.get ⟨i, hi⟩).name.getD none ∧
        (a.mics.get ⟨i, hm⟩).fS = (data.get ⟨i, hi⟩).fS.getD 0 ∧
        (a.mics.get ⟨i, hm⟩).pos = (data.get ⟨i, hi⟩).pos.getD [] := by
  have hmd : micsFromData data = .ok (data.map micOfValid) :=
    micsFromData_of_valid data h
  refine ⟨{ nChannels := data.length
            mics := data.map micOfValid
            valid_names := none
            name_to_mic := buildNameToMic (data.map micOfValid) }, ?_, rfl, by simp, ?_⟩
  · unfold MicArray.init
    rw [hmd]
  · intro i hi hm
    simp only [List.get_eq_getElem, List.getElem_map]
    exact ⟨rfl, rfl, rfl⟩

/-- Witness for C7 at the concrete two-object configuration. -/
theorem claim_C7_witness :
    ∃ a, MicArray.init [objA, objB] = .ok a ∧
      a.nChannels = 2 ∧
      a.mics.length = 2 ∧
      ∀ i (hi : i < ([objA, objB] : List JsonMicObj).length)
        (hm : i < a.mics.length),
        (a.mics.get ⟨i, hm⟩).name =
          (([objA, objB] : List JsonMicObj).get ⟨i, hi⟩).name.getD none ∧
        (a.mics.get ⟨i, hm⟩).fS =
          (([objA, objB] : List JsonMicObj).get ⟨i, hi⟩).fS.getD 0 ∧
        (a.mics.get ⟨i, hm⟩).pos =
          (([objA, objB] : List JsonMicObj).get ⟨i, hi⟩).pos.getD [] :=
  claim_C7 [objA, objB] (by decide)

/-! ### The `name_to_mic` dictionary -/

theorem dictLookup_dictInsert (d : List (Option MicName × Nat))
    (k : Option MicName) (v : Nat) (k' : Option MicName) :
    dictLookup (dictInsert d k v) k' =
      if k' = k then some v else dictLookup d k' := by
  induction d with
  | nil =>
    show (if k = k' then some v else none) = if k' = k then some v else none
    by_cases h : k' = k
    · rw [if_pos h.symm, if_pos h]
    · rw [if_neg (fun he => h he.symm), if_neg h]
  | cons e rest ih =>
    obtain ⟨k₀, v₀⟩ := e
    show dictLookup
        (if k₀ = k then (k, v) :: rest else (k₀, v₀) :: dictInsert rest k v) k'
      = _
    by_cases h0 : k₀ = k
    · rw [if_pos h0]
      subst h0
      show (if k₀ = k' then some v else dictLookup rest k') = _
      by_cases h : k' = k₀
      · rw [if_pos h.symm, if_pos h]
      · rw [if_neg (fun he => h he.symm), if_neg h]
        show dictLookup rest k' = if k₀ = k' then some v₀ else dictLookup rest k'
        rw [if_neg (fun he => h he.symm)]
    · rw [if_neg h0]
      show (if k₀ = k' then some v₀ else dictLookup (dictInsert rest k v) k') = _
      by_cases h1 : k₀ = k'
      · rw [if_pos h1, if_neg (fun he => h0 (h1.trans he))]
        show some v₀ = if k₀ = k' then some v₀ else dictLookup rest k'
        rw [if_pos h1]
      · rw [if_neg h1, ih]
        by_cases h : k' = k
        · rw [if_pos h, if_pos h]
        · rw [if_neg h, if_neg h]
          show dictLookup rest k' = if k₀ = k' then some v₀ else dictLookup rest k'
          rw [if_neg h1]

theorem dictMem_dictInsert (d : List (Option MicName × Nat))
    (k : Option MicName) (v : Nat) (k' : Option MicName) :
    dictMem (dictInsert d k v) k' = true ↔
      (k' = k ∨ dictMem d k' = true) := by
  by_cases h : k' = k <;> simp [dictMem, dictLookup_dictInsert, h]

theorem length_dictInsert (d : List (Option MicName × Nat))
    (k : Option MicName) (v : Nat) :
    (dictInsert d k v).length =
      if dictMem d k then d.length else d.length + 1 := by
  induction d with
  | nil => simp [dictInsert, dictMem, dictLookup]
  | cons e rest ih =>
    obtain ⟨k₀, v₀⟩ := e
    by_cases h : k₀ = k
    · simp [dictInsert, h, dictMem, dictLookup]
    · have hm : dictMem ((k₀, v₀) :: rest) k = dictMem rest k := by
        simp [dictMem, dictLookup, h]
      rw [hm]
      show (if k₀ = k then (k, v) :: rest
            else (k₀, v₀) :: dictInsert rest k v).length = _
      rw [if_neg h, List.length_cons, ih]
      by_cases hmem : dictMem rest k <;> simp [hmem]

theorem buildNameToMicAux_lookup (mics : List Mic) :
    ∀ (d : List (Option MicName × Nat)) (i : Nat) (k : Option MicName),
      dictLookup (buildNameToMicAux d i mics) k =
        (match lastIdxOf k mics with
          | some j => some (i + j)
          | none => dictLookup d k) := by
  induction mics with
  | nil => intro d i k; simp [buildNameToMicAux, lastIdxOf]
  | cons m rest ih =>
    intro d i k
    show dictLookup (buildNameToMicAux (dictInsert d m.name i) (i + 1) rest) k = _
    rw [ih (dictInsert d m.name i) (i + 1) k]
    cases hrest : lastIdxOf k rest with
    | some j =>
      simp only [lastIdxOf, hrest, Option.some.injEq]
      omega
    | none =>
      rw [dictLookup_dictInsert]
      simp only [lastIdxOf, hrest]
      by_cases h : m.name = k
      · simp [h]
      · simp [h, Ne.symm h]

theorem lastIdxOf_eq_none (k : Option MicName) (mics : List Mic) :
    lastIdxOf k mics = none ↔ ∀ m ∈ mics, m.name ≠ k := by
  induction mics with
  | nil => simp [lastIdxOf]
  | cons m rest ih =>
    cases hrest : lastIdxOf k rest with
    | some j =>
      simp only [lastIdxOf, hrest, List.mem_cons, forall_eq_or_imp]
      constructor
      · intro h; cases h
      · rintro ⟨-, hall⟩
        have := ih.mpr hall
        rw [hrest] at this
        cases this
    | none =>
      have hall : ∀ m' ∈ rest, m'.name ≠ k := ih.mp hrest
      simp only [lastIdxOf, hrest, List.mem_cons, forall_eq_or_imp]
      by_cases h : m.name = k
      · simp [h, hall]
      · rw [if_neg h]
        exact iff_of_true rfl ⟨h, hall⟩

theorem lastIdxOf_spec (k : Option MicName) (mics : List Mic) :
    ∀ j, lastIdxOf k mics = some j ↔
      ∃ hj : j < mics.length, (mics.get ⟨j, hj⟩).name = k ∧
        ∀ l (hl : l < mics.length), j < l → (mics.get ⟨l, hl⟩).name ≠ k := by
  induction mics with
  | nil => intro j; simp [lastIdxOf]
  | cons m rest ih =>
    intro j
    cases hrest : lastIdxOf k rest with
    | some j' =>
      constructor
      · intro h
        simp only [lastIdxOf, hrest, Option.some.injEq] at h
        subst h
        rcases (ih j').mp hrest with ⟨hj', hname, hafter⟩
        refine ⟨by simpa using Nat.succ_lt_succ hj', by simpa using hname, ?_⟩
        intro l hl hlt
        cases l with
        | zero => omega
        | succ l' =>
          have hl' : l' < rest.length := by simpa using hl
          have := hafter l' hl' (by omega)
          simpa using this
      · rintro ⟨hj, hname, hafter⟩
        simp only [lastIdxOf, hrest, Option.some.injEq]
        rcases (ih j').mp hrest with ⟨hj', hname', -⟩
        cases j with
        | zero =>
          exfalso
          exact hafter (j' + 1) (by simpa using Nat.succ_lt_succ hj')
            (Nat.succ_pos j') (by simpa using hname')
        | succ jj =>
          have hjj : jj < rest.length := by simpa using hj
          have hjeq : lastIdxOf k rest = some jj := by
            rw [ih jj]
            refine ⟨hjj, by simpa using hname, ?_⟩
            intro l hl hlt
            have := hafter (l + 1) (by simpa using Nat.succ_lt_succ hl) (by omega)
            simpa using this
          rw [hrest] at hjeq
          cases hjeq
          rfl
    | none =>
      have hall : ∀ m' ∈ rest, m'.name ≠ k := (lastIdxOf_eq_none k rest).mp hrest
      by_cases hm : m.name = k
      · constructor
        · intro h
          simp only [lastIdxOf, hrest, if_pos hm, Option.some.injEq] at h
          subst h
          refine ⟨Nat.succ_pos _, by simpa using hm, ?_⟩
          intro l hl hlt
          cases l with
          | zero => omega
          | succ l' =>
            have hl' : l' < rest.length := by simpa using hl
            simpa using hall (rest.get ⟨l', hl'⟩) (rest.get_mem l' hl')
        · rintro ⟨hj, hname, hafter⟩
          simp only [lastIdxOf, hrest, if_pos hm]
          cases j with
          | zero => rfl
          | succ jj =>
            exfalso
            have hjj : jj < rest.length := by simpa using hj
            exact hall (rest.get ⟨jj, hjj⟩) (rest.get_mem jj hjj)
              (by simpa using hname)
      · constructor
        · intro h
          simp only [lastIdxOf, hrest, if_neg hm] at h
          exact Option.noConfusion h
        · rintro ⟨hj, hname, -⟩
          exfalso
          cases j with
          | zero => exact hm (by simpa using hname)
          | succ jj =>
            have hjj : jj < rest.length := by simpa using hj
            exact hall (rest.get ⟨jj, hjj⟩) (rest.get_mem jj hjj)
              (by simpa using hname)

theorem buildNameToMicAux_length (mics : List Mic) :
    ∀ (d : List (Option MicName × Nat)) (i : Nat),
      (∀ m ∈ mics, dictMem d m.name = false) →
      (mics.map Mic.name).Nodup →
      (buildNameToMicAux d i mics).length = d.length + mics.length := by
  induction mics with
  | nil => intro d i _ _; simp [buildNameToMicAux]
  | cons m rest ih =>
    intro d i hmem hnd
    simp only [List.map_cons, List.nodup_cons] at hnd
    obtain ⟨hnotin, hnd'⟩ := hnd
    have hmem' : ∀ m' ∈ rest, dictMem (dictInsert d m.name i) m'.name = false := by
      intro m' hm'
      have h1 : dictMem d m'.name = false := hmem m' (List.mem_cons_of_mem m hm')
      have h2 : m'.name ≠ m.name := by
        intro he
        exact hnotin (List.mem_map.mpr ⟨m', hm', he⟩)
      cases hh : dictMem (dictInsert d m.name i) m'.name with
      | false => rfl
      | true =>
        exfalso
        rcases (dictMem_dictInsert d m.name i m'.name).mp hh with h | h
        · exact h2 h
        · rw [h1] at h; cases h
    show (buildNameToMicAux (dictInsert d m.name i) (i + 1) rest).length = _
    rw [ih (dictInsert d m.name i) (i + 1) hmem' hnd', length_dictInsert]
    rw [if_neg (by simp [hmem m (List.mem_cons_self m rest)])]
    simp only [List.length_cons]
    omega

/-- **C8.** After construction, `name_to_mic` maps each name to the
last-occurring mic with that name; with pairwise-distinct names it maps
`mics[i].name` to `mics[i]` and has exactly `nChannels` entries; the
membership test is key membership in `name_to_mic`. -/
theorem claim_C8 (data : List JsonMicObj) (a : MicArray)
    (h : MicArray.init data = .ok a) :
    (∀ k j, dictLookup a.name_to_mic k = some j ↔
        ∃ hj : j < a.mics.length, (a.mics.get ⟨j, hj⟩).name = k ∧
          ∀ l (hl : l < a.mics.length), j < l →
            (a.mics.get ⟨l, hl⟩).name ≠ k) ∧
      ((a.mics.map Mic.name).Nodup →
        (∀ i (hi : i < a.mics.length),
          dictLookup a.name_to_mic ((a.mics.get ⟨i, hi⟩).name) = some i) ∧
        a.name_to_mic.length = a.nChannels) ∧
      (∀ k, a.contains k = dictMem a.name_to_mic k) := by
  obtain ⟨hmd, hch, -, hdict⟩ := MicArray.init_ok data a h
  have hlen : a.mics.length = data.length :=
    micsFromData_length data a.mics hmd
  have hlook : ∀ k, dictLookup a.name_to_mic k = lastIdxOf k a.mics := by
    intro k
    rw [hdict]
    show dictLookup (buildNameToMicAux [] 0 a.mics) k = _
    rw [buildNameToMicAux_lookup a.mics [] 0 k]
    cases hli : lastIdxOf k a.mics with
    | some j => simp
    | none => rfl
  refine ⟨?_, ?_, fun k => rfl⟩
  · intro k j
    rw [hlook k]
    exact lastIdxOf_spec k a.mics j
  · intro hnd
    constructor
    · intro i hi
      rw [hlook, lastIdxOf_spec]
      refine ⟨hi, rfl, ?_⟩
      intro l hl hlt heq
      have hinj := List.nodup_iff_injective_get.mp hnd
      have hgl : (a.mics.map Mic.name).get ⟨l, by simpa using hl⟩ =
          (a.mics.map Mic.name).get ⟨i, by simpa using hi⟩ := by
        rw [List.get_map, List.get_map]
        exact heq
      have := hinj hgl
      have : l = i := congrArg Fin.val this
      omega
    · rw [hch, ← hlen, hdict]
      show (buildNameToMicAux [] 0 a.mics).length = a.mics.length
      rw [buildNameToMicAux_length a.mics [] 0 (fun m _ => rfl) hnd]
      simp

/-- Witness for C8: the last-occurrence characterisation instantiated at
the concrete two-mic array, name "A", index 0. -/
theorem claim_C8_witness :
    dictLookup micArrayAB.name_to_mic (some (MicName.str "A")) = some 0 ↔
      ∃ hj : 0 < micArrayAB.mics.length,
        (micArrayAB.mics.get ⟨0, hj⟩).name = some (MicName.str "A") ∧
          ∀ l (hl : l < micArrayAB.mics.length), 0 < l →
            (micArrayAB.mics.get ⟨l, hl⟩).name ≠ some (MicName.str "A") :=
  (claim_C8 [objA, objB] micArrayAB rfl).1 (some (MicName.str "A")) 0

/-! ### `set_mic_locs` -/

theorem setPosAt_length (ms : List Mic) :
    ∀ (i : Nat) (p : List Int), (setPosAt ms i p).length = ms.length := by
  induction ms with
  | nil => intro i p; rfl
  | cons m rest ih =>
    intro i p
    cases i with
    | zero => rfl
    | succ i' => simp [setPosAt, ih i' p]

theorem setPosAt_get (ms : List Mic) :
    ∀ (i : Nat) (p : List Int) (j : Nat)
      (hj : j < (setPosAt ms i p).length) (hj' : j < ms.length),
      (setPosAt ms i p).get ⟨j, hj⟩ =
        if j = i then { ms.get ⟨j, hj'⟩ with pos := p }
        else ms.get ⟨j, hj'⟩ := by
  induction ms with
  | nil => intro i p j hj hj'; simp [setPosAt] at hj
  | cons m rest ih =>
    intro i p j hj hj'
    cases i with
    | zero =>
      cases j with
      | zero => simp [setPosAt]
      | succ j' => simp [setPosAt]
    | succ i' =>
      cases j with
      | zero => simp [setPosAt]
      | succ j' =>
        have hj2 : j' < (setPosAt rest i' p).length := by
          simpa [setPosAt] using hj
        have hj2' : j' < rest.length := by simpa using hj'
        have hstep : (setPosAt (m :: rest) (i' + 1) p).get ⟨j' + 1, hj⟩ =
            (setPosAt rest i' p).get ⟨j', hj2⟩ := by
          simp [setPosAt]
        rw [hstep, ih i' p j' hj2 hj2']
        by_cases h : j' = i' <;> simp [h]

theorem set_mic_locs_fields (locs : List (Option MicName × List Int)) :
    ∀ a : MicArray,
      (a.set_mic_locs locs).1.name_to_mic = a.name_to_mic ∧
      (a.set_mic_locs locs).1.nChannels = a.nChannels ∧
      (a.set_mic_locs locs).1.valid_names = a.valid_names ∧
      (a.set_mic_locs locs).1.mics.length = a.mics.length := by
  induction locs with
  | nil => intro a; exact ⟨rfl, rfl, rfl, rfl⟩
  | cons e rest ih =>
    intro a
    obtain ⟨nm, p⟩ := e
    cases hl : dictLookup a.name_to_mic nm with
    | some i =>
      have heq : a.set_mic_locs ((nm, p) :: rest) =
          MicArray.set_mic_locs { a with mics := setPosAt a.mics i p } rest := by
        simp [MicArray.set_mic_locs, hl]
      rcases ih { a with mics := setPosAt a.mics i p } with ⟨h1, h2, h3, h4⟩
      rw [heq]
      refine ⟨h1, h2, h3, ?_⟩
      rw [h4]
      exact setPosAt_length a.mics i p
    | none =>
      have heq : a.set_mic_locs ((nm, p) :: rest) = (a, some nm) := by
        simp [MicArray.set_mic_locs, hl]
      rw [heq]
      exact ⟨rfl, rfl, rfl, rfl⟩

theorem listGet_congr (l₁ l₂ : List Mic) (h : l₁ = l₂) (j : Nat)
    (h₁ : j < l₁.length) (h₂ : j < l₂.length) :
    l₁.get ⟨j, h₁⟩ = l₂.get ⟨j, h₂⟩ := by
  subst h; rfl

theorem set_mic_locs_name_fS (locs : List (Option MicName × List Int)) :
    ∀ (a : MicArray) (j : Nat)
      (hj : j < (a.set_mic_locs locs).1.mics.length) (hj' : j < a.mics.length),
      ((a.set_mic_locs locs).1.mics.get ⟨j, hj⟩).name =
          (a.mics.get ⟨j, hj'⟩).name ∧
        ((a.set_mic_locs locs).1.mics.get ⟨j, hj⟩).fS =
          (a.mics.get ⟨j, hj'⟩).fS := by
  induction locs with
  | nil => intro a j hj hj'; exact ⟨rfl, rfl⟩
  | cons e rest ih =>
    intro a j hj hj'
    obtain ⟨nm, p⟩ := e
    cases hl : dictLookup a.name_to_mic nm with
    | some i =>
      have heq : a.set_mic_locs ((nm, p) :: rest) =
          MicArray.set_mic_locs { a with mics := setPosAt a.mics i p } rest := by
        simp [MicArray.set_mic_locs, hl]
      have hj0 : j < (MicArray.set_mic_locs
          { a with mics := setPosAt a.mics i p } rest).1.mics.length := by
        rw [← heq]; exact hj
      have hja : j < (setPosAt a.mics i p).length := by
        rw [setPosAt_length]; exact hj'
      have step := ih { a with mics := setPosAt a.mics i p } j hj0 hja
      have hget : (setPosAt a.mics i p).get ⟨j, hja⟩ =
          if j = i then { a.mics.get ⟨j, hj'⟩ with pos := p }
          else a.mics.get ⟨j, hj'⟩ := setPosAt_get a.mics i p j hja hj'
      have hmain : ((a.set_mic_locs ((nm, p) :: rest)).1.mics.get ⟨j, hj⟩) =
          ((MicArray.set_mic_locs { a with mics := setPosAt a.mics i p }
            rest).1.mics.get ⟨j, hj0⟩) :=
        listGet_congr _ _ (by rw [heq]) j hj hj0
      rw [hmain]
      rcases step with ⟨hn, hf⟩
      rw [hn, hf, hget]
      by_cases h : j = i <;> simp [h]
    | none =>
      have heq : a.set_mic_locs ((nm, p) :: rest) = (a, some nm) := by
        simp [MicArray.set_mic_locs, hl]
      have : ((a.set_mic_locs ((nm, p) :: rest)).1.mics.get ⟨j, hj⟩) =
          a.mics.get ⟨j, hj'⟩ :=
        listGet_congr _ _ (by rw [heq]) j hj hj'
      rw [this]
      exact ⟨rfl, rfl⟩

theorem set_mic_locs_pos (locs : List (Option MicName × List Int)) :
    ∀ (a : MicArray) (j : Nat)
      (hj : j < (a.set_mic_locs locs).1.mics.length) (hj' : j < a.mics.length),
      ((a.set_mic_locs locs).1.mics.get ⟨j, hj⟩).pos =
        (lastWrite a.name_to_mic (processedLocs a.name_to_mic locs) j).getD
          ((a.mics.get ⟨j, hj'⟩).pos) := by
  induction locs with
  | nil => intro a j hj hj'; rfl
  | cons e rest ih =>
    intro a j hj hj'
    obtain ⟨nm, p⟩ := e
    cases hl : dictLookup a.name_to_mic nm with
    | some i =>
      have hmem : dictMem a.name_to_mic nm = true := by
        simp [dictMem, hl]
      have hproc : processedLocs a.name_to_mic ((nm, p) :: rest) =
          (nm, p) :: processedLocs a.name_to_mic rest := by
        simp [processedLocs, List.takeWhile, hmem]
      have heq : a.set_mic_locs ((nm, p) :: rest) =
          MicArray.set_mic_locs { a with mics := setPosAt a.mics i p } rest := by
        simp [MicArray.set_mic_locs, hl]
      have hj0 : j < (MicArray.set_mic_locs
          { a with mics := setPosAt a.mics i p } rest).1.mics.length := by
        rw [← heq]; exact hj
      have hja : j < (setPosAt a.mics i p).length := by
        rw [setPosAt_length]; exact hj'
      have hmain : ((a.set_mic_locs ((nm, p) :: rest)).1.mics.get ⟨j, hj⟩) =
          ((MicArray.set_mic_locs { a with mics := setPosAt a.mics i p }
            rest).1.mics.get ⟨j, hj0⟩) :=
        listGet_congr _ _ (by rw [heq]) j hj hj0
      have step := ih { a with mics := setPosAt a.mics i p } j hj0 hja
      have hget : (setPosAt a.mics i p).get ⟨j, hja⟩ =
          if j = i then { a.mics.get ⟨j, hj'⟩ with pos := p }
          else a.mics.get ⟨j, hj'⟩ := setPosAt_get a.mics i p j hja hj'
      rw [hmain, step, hget, hproc]
      show _ = (lastWrite a.name_to_mic
          ((nm, p) :: processedLocs a.name_to_mic rest) j).getD _
      cases hlw : lastWrite a.name_to_mic (processedLocs a.name_to_mic rest) j with
      | some q =>
        show (some q).getD _ = (match lastWrite a.name_to_mic
            (processedLocs a.name_to_mic rest) j with
          | some q => some q
          | none => if dictLookup a.name_to_mic nm = some j then some p
              else none).getD _
        rw [hlw]
        rfl
      | none =>
        show (Option.none).getD _ = (match lastWrite a.name_to_mic
            (processedLocs a.name_to_mic rest) j with
          | some q => some q
          | none => if dictLookup a.name_to_mic nm = some j then some p
              else none).getD _
        rw [hlw]
        show (if j = i then { a.mics.get ⟨j, hj'⟩ with pos := p }
            else a.mics.get ⟨j, hj'⟩).pos =
          (if dictLookup a.name_to_mic nm = some j then some p else none).getD _
        rw [hl]
        by_cases h : j = i
        · subst h
          rw [if_pos rfl, if_pos rfl]
          rfl
        · rw [if_neg h, if_neg (fun he => h (Option.some.injEq i j ▸ he).symm)]
          rfl
    | none =>
      have hmem : dictMem a.name_to_mic nm = false := by
        simp [dictMem, hl]
      have hproc : processedLocs a.name_to_mic ((nm, p) :: rest) = [] := by
        simp [processedLocs, List.takeWhile, hmem]
      have heq : a.set_mic_locs ((nm, p) :: rest) = (a, some nm) := by
        simp [MicArray.set_mic_locs, hl]
      have hmain : ((a.set_mic_locs ((nm, p) :: rest)).1.mics.get ⟨j, hj⟩) =
          a.mics.get ⟨j, hj'⟩ :=
        listGet_congr _ _ (by rw [heq]) j hj hj'
      rw [hmain, hproc]
      rfl

theorem set_mic_locs_err_none (locs : List (Option MicName × List Int)) :
    ∀ a : MicArray, (∀ x ∈ locs, dictMem a.name_to_mic x.1 = true) →
      (a.set_mic_locs locs).2 = none := by
  induction locs with
  | nil => intro a _; rfl
  | cons e rest ih =>
    intro a hall
    obtain ⟨nm, p⟩ := e
    have hmem : dictMem a.name_to_mic nm = true :=
      hall (nm, p) (List.mem_cons_self _ _)
    cases hl : dictLookup a.name_to_mic nm with
    | none => rw [dictMem, hl] at hmem; cases hmem
    | some i =>
      have heq : a.set_mic_locs ((nm, p) :: rest) =
          MicArray.set_mic_locs { a with mics := setPosAt a.mics i p } rest := by
        simp [MicArray.set_mic_locs, hl]
      rw [heq]
      exact ih _ (fun x hx => hall x (List.mem_cons_of_mem _ hx))

theorem set_mic_locs_err_some (pre : List (Option MicName × List Int)) :
    ∀ (a : MicArray) (nm : Option MicName) (p : List Int)
      (post : List (Option MicName × List Int)),
      (∀ x ∈ pre, dictMem a.name_to_mic x.1 = true) →
      dictMem a.name_to_mic nm = false →
      (a.set_mic_locs (pre ++ (nm, p) :: post)).2 = some nm := by
  induction pre with
  | nil =>
    intro a nm p post _ hnm
    cases hl : dictLookup a.name_to_mic nm with
    | some i => rw [dictMem, hl] at hnm; cases hnm
    | none =>
      show (a.set_mic_locs ((nm, p) :: post)).2 = some nm
      have heq : a.set_mic_locs ((nm, p) :: post) = (a, some nm) := by
        simp [MicArray.set_mic_locs, hl]
      rw [heq]
  | cons e pre ih =>
    intro a nm p post hpre hnm
    obtain ⟨nm', p'⟩ := e
    have hmem : dictMem a.name_to_mic nm' = true :=
      hpre (nm', p') (List.mem_cons_self _ _)
    cases hl : dictLookup a.name_to_mic nm' with
    | none => rw [dictMem, hl] at hmem; cases hmem
    | some i =>
      have heq : a.set_mic_locs (((nm', p') :: pre) ++ (nm, p) :: post) =
          MicArray.set_mic_locs { a with mics := setPosAt a.mics i p' }
            (pre ++ (nm, p) :: post) := by
        simp [MicArray.set_mic_locs, hl]
      rw [heq]
      exact ih _ nm p post
        (fun x hx => hpre x (List.mem_cons_of_mem _ hx)) hnm

theorem processedLocs_all (d : List (Option MicName × Nat))
    (locs : List (Option MicName × List Int)) :
    (∀ x ∈ locs, dictMem d x.1 = true) → processedLocs d locs = locs := by
  induction locs with
  | nil => intro _; rfl
  | cons e rest ih =>
    intro hall
    have hmem : dictMem d e.1 = true := hall e (List.mem_cons_self _ _)
    have ht : processedLocs d (e :: rest) = e :: processedLocs d rest := by
      simp [processedLocs, List.takeWhile, hmem]
    rw [ht, ih (fun x hx => hall x (List.mem_cons_of_mem _ hx))]

theorem processedLocs_of_split (d : List (Option MicName × Nat))
    (pre : List (Option MicName × List Int)) :
    ∀ (nm : Option MicName) (p : List Int)
      (post : List (Option MicName × List Int)),
      (∀ x ∈ pre, dictMem d x.1 = true) → dictMem d nm = false →
      processedLocs d (pre ++ (nm, p) :: post) = pre := by
  induction pre with
  | nil =>
    intro nm p post _ hnm
    show processedLocs d ((nm, p) :: post) = []
    simp [processedLocs, List.takeWhile, hnm]
  | cons e pre ih =>
    intro nm p post hpre hnm
    have hmem : dictMem d e.1 = true := hpre e (List.mem_cons_self _ _)
    have ht : processedLocs d (e :: (pre ++ (nm, p) :: post)) =
        e :: processedLocs d (pre ++ (nm, p) :: post) := by
      simp [processedLocs, List.takeWhile, hmem]
    show processedLocs d (e :: (pre ++ (nm, p) :: post)) = e :: pre
    rw [ht, ih nm p post (fun x hx => hpre x (List.mem_cons_of_mem _ hx)) hnm]

/-- **C3.** `set_mic_locs`: every processed pair whose name is a key
overwrites that mic's position (the final position of mic `j` is the last
write that resolved to `j`, or its old position); the first pair whose name
is absent raises the invalid-input error naming it, and the updates from
the earlier pairs of the same call remain applied (no rollback); a call
whose names are all present applies every update and raises nothing. -/
theorem claim_C3 (a : MicArray) (pre post : List (Option MicName × List Int))
    (nm : Option MicName) (q : List Int)
    (hpre : ∀ x ∈ pre, a.contains x.1 = true)
    (hnm : a.contains nm = false) :
    ((a.set_mic_locs (pre ++ (nm, q) :: post)).2 = some nm ∧
      ∀ j (hj : j < (a.set_mic_locs (pre ++ (nm, q) :: post)).1.mics.length)
        (hj' : j < a.mics.length),
        ((a.set_mic_locs (pre ++ (nm, q) :: post)).1.mics.get ⟨j, hj⟩).pos =
          (lastWrite a.name_to_mic pre j).getD ((a.mics.get ⟨j, hj'⟩).pos)) ∧
      ∀ locs : List (Option MicName × List Int),
        (∀ x ∈ locs, a.contains x.1 = true) →
        (a.set_mic_locs locs).2 = none ∧
        ∀ j (hj : j < (a.set_mic_locs locs).1.mics.length)
          (hj' : j < a.mics.length),
          ((a.set_mic_locs locs).1.mics.get ⟨j, hj⟩).pos =
            (lastWrite a.name_to_mic locs j).getD
              ((a.mics.get ⟨j, hj'⟩).pos) := by
  constructor
  · constructor
    · exact set_mic_locs_err_some pre a nm q post hpre hnm
    · intro j hj hj'
      have hps : processedLocs a.name_to_mic (pre ++ (nm, q) :: post) = pre :=
        processedLocs_of_split a.name_to_mic pre nm q post hpre hnm
      have := set_mic_locs_pos (pre ++ (nm, q) :: post) a j hj hj'
      rw [hps] at this
      exact this
  · intro locs hall
    refine ⟨set_mic_locs_err_none locs a hall, ?_⟩
    intro j hj hj'
    have hps : processedLocs a.name_to_mic locs = locs :=
      processedLocs_all a.name_to_mic locs hall
    have := set_mic_locs_pos locs a j hj hj'
    rw [hps] at this
    exact this

/-- Witness for C3: on the two-mic array, updating "A" then hitting the
absent name "C" raises the invalid-input error naming "C". -/
theorem claim_C3_witness :
    (micArrayAB.set_mic_locs
        ([(some (MicName.str "A"), [9, 9, 9])] ++
          (some (MicName.str "C"), [1, 1, 1]) :: [])).2 =
      some (some (MicName.str "C")) :=
  (claim_C3 micArrayAB [(some (MicName.str "A"), [9, 9, 9])] []
    (some (MicName.str "C")) [1, 1, 1] (by decide) (by decide)).1.1

/-- **C10.** A `set_mic_locs` call (completing or raising partway) changes
only the positions of the mics resolved by its processed entries: the mic
list's length, every mic's name and `fS`, `nChannels`, `valid_names` and
the `name_to_mic` dictionary are unchanged, and a mic no processed entry
resolves to keeps its position. -/
theorem claim_C10 (a : MicArray) (locs : List (Option MicName × List Int)) :
    (a.set_mic_locs locs).1.mics.length = a.mics.length ∧
      (a.set_mic_locs locs).1.nChannels = a.nChannels ∧
      (a.set_mic_locs locs).1.valid_names = a.valid_names ∧
      (a.set_mic_locs locs).1.name_to_mic = a.name_to_mic ∧
      (∀ j (hj : j < (a.set_mic_locs locs).1.mics.length)
        (hj' : j < a.mics.length),
        ((a.set_mic_locs locs).1.mics.get ⟨j, hj⟩).name =
            (a.mics.get ⟨j, hj'⟩).name ∧
          ((a.set_mic_locs locs).1.mics.get ⟨j, hj⟩).fS =
            (a.mics.get ⟨j, hj'⟩).fS) ∧
      ∀ j (hj : j < (a.set_mic_locs locs).1.mics.length)
        (hj' : j < a.mics.length),
        lastWrite a.name_to_mic (processedLocs a.name_to_mic locs) j = none →
        ((a.set_mic_locs locs).1.mics.get ⟨j, hj⟩).pos =
          (a.mics.get ⟨j, hj'⟩).pos := by
  rcases set_mic_locs_fields locs a with ⟨h1, h2, h3, h4⟩
  refine ⟨h4, h2, h3, h1, ?_, ?_⟩
  · intro j hj hj'
    exact set_mic_locs_name_fS locs a j hj hj'
  · intro j hj hj' hnone
    have := set_mic_locs_pos locs a j hj hj'
    rw [hnone] at this
    exact this

/-! ### `plot_audio_dat` -/

theorem foldrMax_le_of_mem (l : List Nat) (x : Nat) (hx : x ∈ l) :
    x ≤ l.foldr max 0 := by
  induction l with
  | nil => cases hx
  | cons a rest ih =>
    rcases List.mem_cons.mp hx with rfl | hmem
    · exact le_max_left _ _
    · exact le_trans (ih hmem) (le_max_right _ _)

/-- One subplot's data: name and the plotted points
`zip(t, right-padded signal)`. -/
def plotEntry (maxLen : Nat) (fS : ℚ) (nv : MicName × List ℚ) :
    MicName × List (ℚ × ℚ) :=
  (nv.1, ((List.range maxLen).map (fun n : Nat => (n : ℚ) / fS)).zip
    (nv.2 ++ List.replicate (maxLen - nv.2.length) 0))

theorem plot_audio_dat_cons₂ (e₁ e₂ : MicName × List ℚ)
    (rest : List (MicName × List ℚ)) (fS : ℚ) :
    plot_audio_dat (e₁ :: e₂ :: rest) fS =
      some ((e₁ :: e₂ :: rest).map
        (plotEntry (maxLenOf (e₁ :: e₂ :: rest)) fS)) := rfl

theorem get_append_pad (l : List ℚ) (n : Nat) (j : Nat)
    (hj : j < (l ++ List.replicate n (0 : ℚ)).length) :
    (l ++ List.replicate n (0 : ℚ)).get ⟨j, hj⟩ =
      if hj' : j < l.length then l.get ⟨j, hj'⟩ else 0 := by
  by_cases hj' : j < l.length
  · rw [dif_pos hj']
    simp [List.get_eq_getElem, List.getElem_append_left hj']
  · rw [dif_neg hj']
    have hge : l.length ≤ j := Nat.le_of_not_lt hj'
    have hlt : j - l.length < n := by
      have h2 := hj
      simp only [List.length_append, List.length_replicate] at h2
      omega
    simp only [List.get_eq_getElem]
    rw [List.getElem_append_right hge]
    simp [List.getElem_replicate]

theorem get_zip_pair (l₁ l₂ : List ℚ) (j : Nat)
    (h : j < (l₁.zip l₂).length) (h₁ : j < l₁.length) (h₂ : j < l₂.length) :
    (l₁.zip l₂).get ⟨j, h⟩ = (l₁.get ⟨j, h₁⟩, l₂.get ⟨j, h₂⟩) := by
  simp [List.get_eq_getElem, List.getElem_zip]

theorem plotEntries_spec (ad : List (MicName × List ℚ)) (fS : ℚ) :
    ∀ i (hi : i < (ad.map (plotEntry (maxLenOf ad) fS)).length)
      (hi' : i < ad.length),
      ((ad.map (plotEntry (maxLenOf ad) fS)).get ⟨i, hi⟩).1 =
          (ad.get ⟨i, hi'⟩).1 ∧
        ((ad.map (plotEntry (maxLenOf ad) fS)).get ⟨i, hi⟩).2.length =
          maxLenOf ad ∧
        ∀ j (hj : j <
            ((ad.map (plotEntry (maxLenOf ad) fS)).get ⟨i, hi⟩).2.length),
          (((ad.map (plotEntry (maxLenOf ad) fS)).get
              ⟨i, hi⟩).2.get ⟨j, hj⟩).1 = (j : ℚ) / fS ∧
          (((ad.map (plotEntry (maxLenOf ad) fS)).get
              ⟨i, hi⟩).2.get ⟨j, hj⟩).2 =
            if hj' : j < (ad.get ⟨i, hi'⟩).2.length
            then (ad.get ⟨i, hi'⟩).2.get ⟨j, hj'⟩ else 0 := by
  intro i hi hi'
  have hgi : (ad.map (plotEntry (maxLenOf ad) fS)).get ⟨i, hi⟩ =
      plotEntry (maxLenOf ad) fS (ad.get ⟨i, hi'⟩) := List.get_map ..
  rw [hgi]
  have hmem : ad.get ⟨i, hi'⟩ ∈ ad := List.get_mem ad i hi'
  have hle : (ad.get ⟨i, hi'⟩).2.length ≤ maxLenOf ad :=
    foldrMax_le_of_mem (ad.map (fun nv => nv.2.length)) _
      (List.mem_map.mpr ⟨ad.get ⟨i, hi'⟩, hmem, rfl⟩)
  have ht_len : ((List.range (maxLenOf ad)).map
      (fun n : Nat => (n : ℚ) / fS)).length = maxLenOf ad := by
    rw [List.length_map, List.length_range]
  have hp_len : ((ad.get ⟨i, hi'⟩).2 ++
      List.replicate (maxLenOf ad -
        (ad.get ⟨i, hi'⟩).2.length) (0 : ℚ)).length = maxLenOf ad := by
    rw [List.length_append, List.length_replicate]
    omega
  have hlen2 : (plotEntry (maxLenOf ad) fS
      (ad.get ⟨i, hi'⟩)).2.length = maxLenOf ad := by
    show (((List.range (maxLenOf ad)).map
        (fun n : Nat => (n : ℚ) / fS)).zip
        ((ad.get ⟨i, hi'⟩).2 ++
          List.replicate (maxLenOf ad -
            (ad.get ⟨i, hi'⟩).2.length) 0)).length = maxLenOf ad
    rw [List.length_zip, ht_len, hp_len, min_self]
  refine ⟨rfl, hlen2, ?_⟩
  intro j hj
  have hjM : j < maxLenOf ad := by rw [hlen2] at hj; exact hj
  have hjt : j < ((List.range (maxLenOf ad)).map
      (fun n : Nat => (n : ℚ) / fS)).length := by rw [ht_len]; exact hjM
  have hjp : j < ((ad.get ⟨i, hi'⟩).2 ++
      List.replicate (maxLenOf ad -
        (ad.get ⟨i, hi'⟩).2.length) (0 : ℚ)).length := by
    rw [hp_len]; exact hjM
  have hzip : (plotEntry (maxLenOf ad) fS
      (ad.get ⟨i, hi'⟩)).2.get ⟨j, hj⟩ =
      (((List.range (maxLenOf ad)).map
          (fun n : Nat => (n : ℚ) / fS)).get ⟨j, hjt⟩,
        ((ad.get ⟨i, hi'⟩).2 ++
          List.replicate (maxLenOf ad -
            (ad.get ⟨i, hi'⟩).2.length) 0).get ⟨j, hjp⟩) :=
    get_zip_pair _ _ j hj hjt hjp
  rw [hzip]
  constructor
  · have hjr : j < (List.range (maxLenOf ad)).length := by
      rw [List.length_range]; exact hjM
    have h1 : ((List.range (maxLenOf ad)).map
        (fun n : Nat => (n : ℚ) / fS)).get ⟨j, hjt⟩ =
        (((List.range (maxLenOf ad)).get ⟨j, hjr⟩ : Nat) : ℚ) / fS :=
      List.get_map ..
    rw [h1]
    have h2 : (List.range (maxLenOf ad)).get ⟨j, hjr⟩ = j := by
      rw [List.get_eq_getElem, List.getElem_range]
    rw [h2]
  · exact get_append_pad _ _ j hjp

/-- Counterexample to C9 as stated: on the single-entry mapping
`{"A": [1]}` the program raises (`plt.subplots(1)` returns a scalar `Axes`
that `zip` cannot iterate) and draws nothing, so no plot data exists, let
alone one subplot per entry. -/
theorem claim_C9_counterexample :
    ¬ ∃ plots : List (MicName × List (ℚ × ℚ)),
      plot_audio_dat [(MicName.str "A", [1])] 1 = some plots ∧
        plots.length = 1 := by
  rintro ⟨plots, hp, -⟩
  have hn : (none : Option (List (MicName × List (ℚ × ℚ)))) = some plots := hp
  exact Option.noConfusion hn

/-- **C9** (amended). On a mapping of at least two entries,
`plot_audio_dat` draws one subplot per entry (same channel, same order);
every subplot has `max_len` points, the `j`-th at x-coordinate `j / fS`
seconds, y-coordinate the signal's `j`-th sample when it exists and the
zero padding otherwise — so all subplots share one time axis.  (On a
single-entry mapping the code raises `TypeError` — `plt.subplots(1)`
returns a scalar `Axes` that `zip` cannot iterate — and on an empty one
`max([])` raises `ValueError`; neither draws anything.) -/
theorem claim_C9 (audio_dat : List (MicName × List ℚ)) (fS : ℚ)
    (h : 2 ≤ audio_dat.length) :
    ∃ plots, plot_audio_dat audio_dat fS = some plots ∧
      plots.length = audio_dat.length ∧
      ∀ i (hi : i < plots.length) (hi' : i < audio_dat.length),
        (plots.get ⟨i, hi⟩).1 = (audio_dat.get ⟨i, hi'⟩).1 ∧
        (plots.get ⟨i, hi⟩).2.length = maxLenOf audio_dat ∧
        ∀ j (hj : j < (plots.get ⟨i, hi⟩).2.length),
          ((plots.get ⟨i, hi⟩).2.get ⟨j, hj⟩).1 = (j : ℚ) / fS ∧
          ((plots.get ⟨i, hi⟩).2.get ⟨j, hj⟩).2 =
            if hj' : j < (audio_dat.get ⟨i, hi'⟩).2.length
            then (audio_dat.get ⟨i, hi'⟩).2.get ⟨j, hj'⟩ else 0 := by
  cases audio_dat with
  | nil => simp at h
  | cons e₁ tl =>
    cases tl with
    | nil => simp at h
    | cons e₂ tl₂ =>
      exact ⟨(e₁ :: e₂ :: tl₂).map
          (plotEntry (maxLenOf (e₁ :: e₂ :: tl₂)) fS),
        plot_audio_dat_cons₂ e₁ e₂ tl₂ fS, by simp,
        plotEntries_spec (e₁ :: e₂ :: tl₂) fS⟩

/-- Witness for the amended C9 at a concrete two-channel mapping with
signals of different lengths. -/
theorem claim_C9_witness :
    ∃ plots, plot_audio_dat
        [(MicName.str "A", [1, 2]), (MicName.str "B", [5])] 2 = some plots ∧
      plots.length =
        ([(MicName.str "A", [1, 2]), (MicName.str "B", [5])] :
          List (MicName × List ℚ)).length ∧
      ∀ i (hi : i < plots.length)
        (hi' : i < ([(MicName.str "A", [1, 2]), (MicName.str "B", [5])] :
          List (MicName × List ℚ)).length),
        (plots.get ⟨i, hi⟩).1 =
          (([(MicName.str "A", [1, 2]), (MicName.str "B", [5])] :
            List (MicName × List ℚ)).get ⟨i, hi'⟩).1 ∧
        (plots.get ⟨i, hi⟩).2.length =
          maxLenOf [(MicName.str "A", [1, 2]), (MicName.str "B", [5])] ∧
        ∀ j (hj : j < (plots.get ⟨i, hi⟩).2.length),
          ((plots.get ⟨i, hi⟩).2.get ⟨j, hj⟩).1 = (j : ℚ) / 2 ∧
          ((plots.get ⟨i, hi⟩).2.get ⟨j, hj⟩).2 =
            if hj' : j < (([(MicName.str "A", [1, 2]),
                (MicName.str "B", [5])] :
              List (MicName × List ℚ)).get ⟨i, hi'⟩).2.length
            then (([(MicName.str "A", [1, 2]), (MicName.str "B", [5])] :
              List (MicName × List ℚ)).get ⟨i, hi'⟩).2.get ⟨j, hj'⟩ else 0 :=
  claim_C9 [(MicName.str "A", [1, 2]), (MicName.str "B", [5])] 2 (by simp)
